import Mathlib

/-!
Verification of the cellLab continuous-time cellular-automaton model
(`shobe_celllab_v0.py`): a driver script around an event-driven transition
engine (oriented raster CTS).  The transition-rule table, the grid geometry,
the boundary configuration, the injection loop and the concentration-profile
computation are embedded from the script; the event-driven engine itself
(scheduling, firing, stale-event discard) lives in the external `landlab`
library and is modelled here from the specification of its behaviour.

Conventions: node states are naturals (0 = fluid, 1 = particle); simulated
time is rational.  All rational arithmetic performed by executable
definitions goes through `mkRat` so that concrete runs reduce inside the
kernel; bridge lemmas relate these operations to the field operations on ℚ.
-/

/-- Rational addition expressed through `mkRat` (kernel-reducible form of `+`). -/
def qadd (a b : ℚ) : ℚ := mkRat (a.num * b.den + b.num * a.den) (a.den * b.den)

/-- Modelled from the spec: the engine is driven by a seedable pseudorandom
source.  One step of the deterministic pseudorandom stream (a 64-bit linear
congruential generator). -/
def rngNext (s : Nat) : Nat :=
  (6364136223846793005 * s + 1442695040888963407) % (2 ^ 64)

/-- Modelled from the spec: the exponentially distributed waiting time
`Δt ~ Exp(rate)` drawn from the pseudorandom source, modelled as a
deterministic, strictly positive function of the current draw and the rate:
`Δt = u / rate` with `u = (s % 1000 + 1)/1000 ∈ (0, 1]`. -/
def drawTime (s : Nat) (rate : ℚ) : ℚ :=
  mkRat (((s % 1000) + 1) * rate.den) (1000 * rate.num.natAbs)

/-- Link orientation; the source encodes horizontal as 0 and vertical as 1. -/
inductive Orient where
  | horizontal
  | vertical
deriving DecidableEq

/-- The numeric orientation code used by the source (0 = horizontal, 1 = vertical). -/
def orientCode : Orient → Nat
  | .horizontal => 0
  | .vertical => 1

/-- A landlab `Transition` record: starting pair state `(left-or-bottom cell,
right-or-top cell, orientation)`, new pair state, rate, and process name. -/
structure Transition where
  fromPair : Nat × Nat × Nat
  toPair : Nat × Nat × Nat
  rate : ℚ
  name : String
deriving DecidableEq

/-- The transition list built by `setup_transition_list` in the source:
left motion 0.1, right motion 9.9, down motion 10.55, up motion 9.45.
Rates are written as exact rationals (`mkRat 1 10 = 0.1`, etc.). -/
def setup_transition_list : List Transition :=
  [ ⟨(0, 1, 0), (1, 0, 0), mkRat 1 10, "left motion"⟩,
    ⟨(1, 0, 0), (0, 1, 0), mkRat 99 10, "right motion"⟩,
    ⟨(0, 1, 1), (1, 0, 1), mkRat 211 20, "down motion"⟩,
    ⟨(1, 0, 1), (0, 1, 1), mkRat 189 20, "up motion"⟩ ]

/-- Modelled from the spec: `TransitionRuleTable.lookup (stateA, stateB,
orientation)` returns the optional outcome `(newA, newB, rate, label)` of the
first matching entry; no match means the link is inert. -/
def lookup (table : List Transition) (a b : Nat) (o : Orient) :
    Option (Nat × Nat × ℚ × String) :=
  (table.find? (fun tr => decide (tr.fromPair = (a, b, orientCode o)))).map
    (fun tr => (tr.toPair.1, tr.toPair.2.1, tr.rate, tr.name))

/-- An oriented link of the raster lattice.  `a` is the canonical first
endpoint (left cell for horizontal links, bottom cell for vertical links). -/
structure Link where
  a : Nat
  b : Nat
  orient : Orient
deriving DecidableEq

/-- A raster lattice: `nr × nc` nodes in row-major order (node `i` has
column `i % nc` and row `i / nc`), with a closed-boundary predicate. -/
structure RasterGrid where
  nr : Nat
  nc : Nat
  closed : Nat → Bool

/-- All oriented links of the raster lattice: node `i` is the left endpoint
of a horizontal link to `i+1` unless in the last column, and the bottom
endpoint of a vertical link to `i + nc` unless in the last row. -/
def allLinks (L : RasterGrid) : List Link :=
  (List.range (L.nr * L.nc)).flatMap (fun i =>
    (if i % L.nc + 1 < L.nc then [⟨i, i + 1, .horizontal⟩] else []) ++
    (if i / L.nc + 1 < L.nr then [⟨i, i + L.nc, .vertical⟩] else []))

/-- The links incident to node `n`. -/
def incidentLinks (L : RasterGrid) (n : Nat) : List Link :=
  (allLinks L).filter (fun l => decide (l.a = n ∨ l.b = n))

/-- A link is closed when either endpoint is a closed boundary node. -/
def isClosedLink (L : RasterGrid) (l : Link) : Bool :=
  L.closed l.a || L.closed l.b

/-- Modelled from the spec: landlab's `set_closed_boundaries_at_grid_edges`
marks the nodes of each selected grid edge (right, bottom, left, top) as
closed boundary nodes. -/
def set_closed_boundaries_at_grid_edges
    (nrows ncols : Nat) (right bottom left top : Bool) (i : Nat) : Bool :=
  (right && decide (i % ncols = ncols - 1)) ||
  (bottom && decide (i / ncols = 0)) ||
  (left && decide (i % ncols = 0)) ||
  (top && decide (i / ncols = nrows - 1))

/-- A scheduled transition event: the link, the ordered pair of endpoint
states snapshotted at scheduling time, and the absolute fire time. -/
structure Event where
  link : Link
  pair : Nat × Nat
  time : ℚ
deriving DecidableEq

/-- Modelled from the spec: the TransitionEngine state — lattice, rule table,
per-node states, simulated clock, pending event queue, pseudorandom-stream
state, and the log of fired transitions `(link, fire time, label)`. -/
structure Engine where
  lat : RasterGrid
  table : List Transition
  states : List Nat
  clock : ℚ
  queue : List Event
  rng : Nat
  fired : List (Link × ℚ × String)

/-- State of node `n` (0 when out of range). -/
def getState (e : Engine) (n : Nat) : Nat := e.states.getD n 0

/-- Drop any queued event for link `l` (invalidation of a stale entry). -/
def removeLink (q : List Event) (l : Link) : List Event :=
  q.filter (fun ev => decide (ev.link ≠ l))

/-- Modelled from the spec: scheduling one link.  Closed links are never
scheduled.  Otherwise recompute the ordered endpoint states and look up the
rule table: no rule means the link has no event (any stale entry is removed);
a rule with rate λ draws an exponential waiting time from the pseudorandom
source and (re)schedules the link at `clock + Δt`, replacing any queued
event for the same link and tagging the new event with the state snapshot. -/
def scheduleLink (e : Engine) (l : Link) : Engine :=
  if isClosedLink e.lat l then e
  else
    match lookup e.table (getState e l.a) (getState e l.b) l.orient with
    | none => { e with queue := removeLink e.queue l }
    | some (_, _, rate, _) =>
        { e with
          queue := removeLink e.queue l ++
            [⟨l, (getState e l.a, getState e l.b), qadd e.clock (drawTime e.rng rate)⟩],
          rng := rngNext e.rng }

/-- Schedule each link of a list in turn. -/
def rescheduleMany (ls : List Link) (e : Engine) : Engine :=
  ls.foldl scheduleLink e

/-- Modelled from the spec: engine construction — start the clock at 0 with
an empty queue and the given seed, then seed every link of the lattice with
its initial scheduled event (or none, if its pair state enables nothing). -/
def mkEngine (lat : RasterGrid) (table : List Transition) (init : List Nat) (seed : Nat) :
    Engine :=
  rescheduleMany (allLinks lat)
    { lat := lat, table := table, states := init, clock := 0, queue := [],
      rng := seed, fired := [] }

/-- The earliest pending event (first among ties). -/
def minEvent : List Event → Option Event
  | [] => none
  | ev :: rest =>
      match minEvent rest with
      | none => some ev
      | some m => if ev.time ≤ m.time then some ev else some m

/-- Modelled from the spec: processing one popped event.  If the endpoint
states no longer match the snapshot the event is stale and silently
discarded.  Otherwise the clock advances to the fire time, the rule's new
states are applied to the two endpoints, the transition is recorded, and the
fired link plus every link incident to either endpoint is rescheduled. -/
def fireOrDiscard (e : Engine) (ev : Event) : Engine :=
  if (getState e ev.link.a, getState e ev.link.b) = ev.pair then
    match lookup e.table ev.pair.1 ev.pair.2 ev.link.orient with
    | none => { e with queue := e.queue.erase ev }
    | some (na, nb, _, nm) =>
        rescheduleMany
          ((incidentLinks e.lat ev.link.a ++ incidentLinks e.lat ev.link.b).dedup)
          { e with
            clock := ev.time,
            states := (e.states.set ev.link.a na).set ev.link.b nb,
            queue := e.queue.erase ev,
            fired := e.fired ++ [(ev.link, ev.time, nm)] }
  else { e with queue := e.queue.erase ev }

/-- Modelled from the spec: one iteration of the advance loop — pop the
earliest event; stop (leaving it queued) if the queue is empty or its fire
time exceeds the target; otherwise fire or discard it. -/
def step (target : ℚ) (e : Engine) : Option Engine :=
  match minEvent e.queue with
  | none => none
  | some ev => if target < ev.time then none else some (fireOrDiscard e ev)

/-- The advance loop, fuelled: repeat `step` until it stops or fuel runs out. -/
def advanceLoop : Nat → ℚ → Engine → Engine
  | 0, _, e => e
  | fuel + 1, target, e =>
      match step target e with
      | none => e
      | some e2 => advanceLoop fuel target e2

/-- The loop's stopping condition as a boolean: the queue is empty or the
earliest pending event fires strictly after the target. -/
def doneB (target : ℚ) (e : Engine) : Bool :=
  match minEvent e.queue with
  | none => true
  | some ev => decide (target < ev.time)

/-- The loop's stopping condition: `advanceLoop` has run to completion. -/
def done (target : ℚ) (e : Engine) : Prop := doneB target e = true

/-- Modelled from the spec: `advanceTo(targetTime) -> currentTime`.  A target
before the current clock is a fatal caller contract violation, aborted with
no mutation; a target equal to the clock is an idempotent no-op; otherwise
the engine repeatedly fires the earliest eligible event up to the target. -/
def advanceTo (fuel : Nat) (target : ℚ) (e : Engine) : Except String (ℚ × Engine) :=
  if target < e.clock then
    Except.error "ContractViolation: advanceTo target before current clock"
  else if target = e.clock then Except.ok (e.clock, e)
  else
    let e2 := advanceLoop fuel target e
    Except.ok (e2.clock, e2)

/-- Write value `v` at each listed index of a state array. -/
def setStatesRaw (st : List Nat) (nodes : List Nat) (v : Nat) : List Nat :=
  nodes.foldl (fun acc n => acc.set n v) st

/-- Modelled from the spec: `setStates(nodes, value)` forces each listed
node's state to `value`, then re-schedules every link incident to an
affected node exactly as firing does (through the same `rescheduleMany`). -/
def setStates (e : Engine) (nodes : List Nat) (v : Nat) : Engine :=
  rescheduleMany ((nodes.flatMap (fun n => incidentLinks e.lat n)).dedup)
    { e with states := setStatesRaw e.states nodes v }

/-! Driver-script definitions (`shobe_celllab_v0.py`). -/

/-- Number of grid rows in the driver script. -/
def nr : Nat := 50

/-- Number of grid columns in the driver script. -/
def nc : Nat := 200

/-- `mg.node_x` for `RasterModelGrid(nr, nc, 1.0)`: the x-coordinate of node
`i` is its column index. -/
def node_x (i : Nat) : ℚ := (i % nc : Nat)

/-- Membership in `left_cols = np.where(mg.node_x < 0.05*nc)[0]`
(`0.05 * nc = mkRat 5 100 * nc` exactly). -/
def isLeftCol (i : Nat) : Bool := decide (node_x i < mkRat (5 * nc) 100)

/-- The driver's closed-boundary flags:
`mg.set_closed_boundaries_at_grid_edges(False, True, True, True)`
(right open; bottom, left and top closed). -/
def isClosedNode (i : Nat) : Bool :=
  set_closed_boundaries_at_grid_edges nr nc false true true true i

/-- The in-loop injection `node_state_grid[left_cols] = 1`, as a transformer
of the node-state assignment. -/
def injectLeft (g : Nat → Nat) : Nat → Nat :=
  fun i => if isLeftCol i then 1 else g i

/-- The display step `node_state_grid[mg.closed_boundary_nodes] = 0`. -/
def zeroClosed (g : Nat → Nat) : Nat → Nat :=
  fun i => if isClosedNode i then 0 else g i

/-- The initial node-state grid of the driver: zeros, then the left columns
set to 1, then all closed boundary nodes reset to 0. -/
def node_state_init : Nat → Nat := zeroClosed (injectLeft (fun _ => 0))

/-- `np.arange(start, stop, stride)` for naturals (stride assumed positive). -/
def arange (start stop stride : Nat) : List Nat :=
  (List.range ((stop - start + stride - 1) / stride)).map (fun i => start + i * stride)

/-- `np.mean` of a list of node states, as a rational. -/
def npMean (l : List Nat) : ℚ :=
  mkRat (l.foldl (fun (acc : Int) (v : Nat) => acc + (v : Int)) 0) l.length

/-- The slice `g[a:b]` of a flat numpy array. -/
def npSlice (g : List Nat) (a b : Nat) : List Nat := (g.drop a).take (b - a)

/-- One row of a concentration profile at sampling position `x`: the mean of
`node_state_grid[left_bounds[r]:right_bounds[r]]` with
`left_bounds = np.arange(x - 10, nr*nc, nc)` and
`right_bounds = np.arange(x + 10, nr*nc, nc)`. -/
def concProfile (g : List Nat) (x r : Nat) : ℚ :=
  npMean (npSlice g ((arange (x - 10) (nr * nc) nc).getD r 0)
                    ((arange (x + 10) (nr * nc) nc).getD r 0))

/-! Engine invariants. -/

/-- Queue sanity: every pending event lies on a real, non-closed lattice
link and fires no earlier than the current clock. -/
def QueueOK (e : Engine) : Prop :=
  ∀ ev ∈ e.queue, ev.link ∈ allLinks e.lat ∧
    isClosedLink e.lat ev.link = false ∧ e.clock ≤ ev.time

/-- At most one pending event per link. -/
def QueuePairwise (q : List Event) : Prop :=
  q.Pairwise (fun x y => x.link ≠ y.link)

/-- Rule-table sanity (checked at construction per the spec): every present
entry has a strictly positive rate. -/
def TableOK (table : List Transition) : Prop := ∀ tr ∈ table, 0 < tr.rate

/-- The full engine invariant. -/
def EngineInv (e : Engine) : Prop :=
  QueueOK e ∧ QueuePairwise e.queue ∧ TableOK e.table ∧
  e.states.length = e.lat.nr * e.lat.nc

/-- Every fired-log entry lies on a non-closed link. -/
def FiredOK (e : Engine) : Prop :=
  ∀ x ∈ e.fired, isClosedLink e.lat x.1 = false

instance (target : ℚ) (e : Engine) : Decidable (done target e) :=
  inferInstanceAs (Decidable (doneB target e = true))

instance (e : Engine) : Decidable (QueueOK e) :=
  inferInstanceAs (Decidable (∀ ev ∈ e.queue, ev.link ∈ allLinks e.lat ∧
    isClosedLink e.lat ev.link = false ∧ e.clock ≤ ev.time))

instance (q : List Event) : Decidable (QueuePairwise q) :=
  inferInstanceAs (Decidable (q.Pairwise (fun x y => Event.link x ≠ Event.link y)))

instance (table : List Transition) : Decidable (TableOK table) :=
  inferInstanceAs (Decidable (∀ tr ∈ table, 0 < tr.rate))

instance (e : Engine) : Decidable (EngineInv e) :=
  inferInstanceAs (Decidable (QueueOK e ∧ QueuePairwise e.queue ∧ TableOK e.table ∧
    e.states.length = e.lat.nr * e.lat.nc))

instance (e : Engine) : Decidable (FiredOK e) :=
  inferInstanceAs (Decidable (∀ x ∈ e.fired, isClosedLink e.lat x.1 = false))

/-! Basic lemmas: rational helpers, lookup, lattice geometry. -/

theorem qadd_eq (a b : ℚ) : qadd a b = a + b := (Rat.add_def' a b).symm

theorem drawTime_pos (s : Nat) (rate : ℚ) (h : 0 < rate) : 0 < drawTime s rate := by
  rw [drawTime, Rat.mkRat_eq_div]
  apply div_pos
  · have h1 : (0 : Int) < ((s % 1000) + 1 : Nat) := by positivity
    have h2 : (0 : Int) < (rate.den : Int) := Int.natCast_pos.mpr rate.pos
    have := Int.mul_pos h1 h2
    exact_mod_cast this
  · have hnum : rate.num ≠ 0 := Rat.num_ne_zero.mpr (ne_of_gt h)
    have : 0 < rate.num.natAbs := Int.natAbs_pos.mpr hnum
    positivity

theorem lookup_eq_some {table : List Transition} {a b : Nat} {o : Orient}
    {na nb : Nat} {r : ℚ} {nm : String} (h : lookup table a b o = some (na, nb, r, nm)) :
    ∃ tr ∈ table, tr.fromPair = (a, b, orientCode o) ∧ tr.toPair.1 = na ∧
      tr.toPair.2.1 = nb ∧ tr.rate = r ∧ tr.name = nm := by
  unfold lookup at h
  cases hf : table.find? (fun tr => decide (tr.fromPair = (a, b, orientCode o))) with
  | none => rw [hf] at h; exact absurd h (by simp)
  | some tr =>
      rw [hf] at h
      simp only [Option.map_some', Option.some_inj, Prod.mk.injEq] at h
      have hp := @List.find?_some Transition
        (fun tr => decide (tr.fromPair = (a, b, orientCode o))) tr table hf
      exact ⟨tr, List.mem_of_find?_eq_some hf, of_decide_eq_true hp,
        h.1, h.2.1, h.2.2.1, h.2.2.2⟩

@[simp] theorem scheduleLink_lat (e : Engine) (l : Link) : (scheduleLink e l).lat = e.lat := by
  unfold scheduleLink
  split
  · rfl
  · split <;> rfl

@[simp] theorem scheduleLink_table (e : Engine) (l : Link) :
    (scheduleLink e l).table = e.table := by
  unfold scheduleLink
  split
  · rfl
  · split <;> rfl

@[simp] theorem scheduleLink_states (e : Engine) (l : Link) :
    (scheduleLink e l).states = e.states := by
  unfold scheduleLink
  split
  · rfl
  · split <;> rfl

@[simp] theorem scheduleLink_clock (e : Engine) (l : Link) :
    (scheduleLink e l).clock = e.clock := by
  unfold scheduleLink
  split
  · rfl
  · split <;> rfl

@[simp] theorem scheduleLink_fired (e : Engine) (l : Link) :
    (scheduleLink e l).fired = e.fired := by
  unfold scheduleLink
  split
  · rfl
  · split <;> rfl

@[simp] theorem rescheduleMany_nil (e : Engine) : rescheduleMany [] e = e := rfl

@[simp] theorem rescheduleMany_cons (l : Link) (ls : List Link) (e : Engine) :
    rescheduleMany (l :: ls) e = rescheduleMany ls (scheduleLink e l) := rfl

@[simp] theorem rescheduleMany_lat (ls : List Link) (e : Engine) :
    (rescheduleMany ls e).lat = e.lat := by
  induction ls generalizing e with
  | nil => rfl
  | cons l ls ih => rw [rescheduleMany_cons, ih, scheduleLink_lat]

@[simp] theorem rescheduleMany_table (ls : List Link) (e : Engine) :
    (rescheduleMany ls e).table = e.table := by
  induction ls generalizing e with
  | nil => rfl
  | cons l ls ih => rw [rescheduleMany_cons, ih, scheduleLink_table]

@[simp] theorem rescheduleMany_states (ls : List Link) (e : Engine) :
    (rescheduleMany ls e).states = e.states := by
  induction ls generalizing e with
  | nil => rfl
  | cons l ls ih => rw [rescheduleMany_cons, ih, scheduleLink_states]

@[simp] theorem rescheduleMany_clock (ls : List Link) (e : Engine) :
    (rescheduleMany ls e).clock = e.clock := by
  induction ls generalizing e with
  | nil => rfl
  | cons l ls ih => rw [rescheduleMany_cons, ih, scheduleLink_clock]

@[simp] theorem rescheduleMany_fired (ls : List Link) (e : Engine) :
    (rescheduleMany ls e).fired = e.fired := by
  induction ls generalizing e with
  | nil => rfl
  | cons l ls ih => rw [rescheduleMany_cons, ih, scheduleLink_fired]

theorem removeLink_sublist (q : List Event) (l : Link) : List.Sublist (removeLink q l) q :=
  List.filter_sublist q

theorem mem_removeLink {q : List Event} {l : Link} {ev : Event} :
    ev ∈ removeLink q l ↔ ev ∈ q ∧ ev.link ≠ l := by
  simp [removeLink, List.mem_filter]

theorem minEvent_mem : ∀ {q : List Event} {m : Event}, minEvent q = some m → m ∈ q := by
  intro q
  induction q with
  | nil => intro m h; exact absurd h (by simp [minEvent])
  | cons ev rest ih =>
      intro m h
      cases hm : minEvent rest with
      | none =>
          rw [minEvent, hm] at h
          dsimp only at h
          exact (Option.some_inj.mp h) ▸ List.mem_cons_self ev rest
      | some m2 =>
          rw [minEvent, hm] at h
          dsimp only at h
          by_cases hle : ev.time ≤ m2.time
          · rw [if_pos hle] at h
            exact (Option.some_inj.mp h) ▸ List.mem_cons_self ev rest
          · rw [if_neg hle] at h
            exact List.mem_cons_of_mem ev ((Option.some_inj.mp h) ▸ ih hm)

theorem minEvent_le : ∀ {q : List Event} {m : Event}, minEvent q = some m →
    ∀ x ∈ q, m.time ≤ x.time := by
  intro q
  induction q with
  | nil => intro m h; exact absurd h (by simp [minEvent])
  | cons ev rest ih =>
      intro m h x hx
      cases hm : minEvent rest with
      | none =>
          rw [minEvent, hm] at h
          dsimp only at h
          have hrest : rest = [] := by
            cases rest with
            | nil => rfl
            | cons y ys =>
                rw [minEvent] at hm
                cases h2 : minEvent ys <;> rw [h2] at hm <;> simp at hm
                split at hm <;> simp at hm
          subst hrest
          rcases List.mem_cons.mp hx with rfl | hx2
          · exact (Option.some_inj.mp h) ▸ le_refl _
          · exact absurd hx2 (List.not_mem_nil x)
      | some m2 =>
          rw [minEvent, hm] at h
          dsimp only at h
          by_cases hle : ev.time ≤ m2.time
          · rw [if_pos hle] at h
            obtain rfl := Option.some_inj.mp h
            rcases List.mem_cons.mp hx with rfl | hx2
            · exact le_refl _
            · exact le_trans hle (ih hm x hx2)
          · rw [if_neg hle] at h
            obtain rfl := Option.some_inj.mp h
            rcases List.mem_cons.mp hx with rfl | hx2
            · exact le_of_lt (lt_of_not_le hle)
            · exact ih hm x hx2

theorem minEvent_eq_none {q : List Event} : minEvent q = none ↔ q = [] := by
  cases q with
  | nil => simp [minEvent]
  | cons ev rest =>
      simp only [minEvent]
      constructor
      · intro h
        cases h2 : minEvent rest with
        | none => rw [h2] at h; dsimp only at h; exact absurd h (by simp)
        | some m2 =>
            rw [h2] at h
            dsimp only at h
            split at h <;> exact absurd h (by simp)
      · intro h; exact absurd h (by simp)

theorem incidentLinks_subset {L : RasterGrid} {n : Nat} {l : Link}
    (h : l ∈ incidentLinks L n) : l ∈ allLinks L :=
  (List.mem_filter.mp h).1

theorem mem_incidentLinks {L : RasterGrid} {n : Nat} {l : Link} :
    l ∈ incidentLinks L n ↔ l ∈ allLinks L ∧ (l.a = n ∨ l.b = n) := by
  simp [incidentLinks, List.mem_filter]

theorem mem_allLinks {L : RasterGrid} {l : Link} (h : l ∈ allLinks L) :
    l.a < l.b ∧ l.b < L.nr * L.nc := by
  unfold allLinks at h
  simp only [List.mem_flatMap, List.mem_range] at h
  obtain ⟨i, hi, hmem⟩ := h
  have hcomm : L.nc * L.nr = L.nr * L.nc := Nat.mul_comm _ _
  have hmod := Nat.div_add_mod i L.nc
  rcases List.mem_append.mp hmem with hh | hv
  · by_cases hcond : i % L.nc + 1 < L.nc
    · rw [if_pos hcond] at hh
      have hl : l = ⟨i, i + 1, .horizontal⟩ := List.mem_singleton.mp hh
      subst hl
      have hc : 0 < L.nc := by omega
      have hd : i / L.nc + 1 ≤ L.nr := (Nat.div_lt_iff_lt_mul hc).mpr hi
      have h3 : L.nc * (i / L.nc + 1) ≤ L.nc * L.nr := Nat.mul_le_mul_left _ hd
      have h2 : L.nc * (i / L.nc + 1) = L.nc * (i / L.nc) + L.nc := by ring
      refine ⟨Nat.lt_succ_self i, ?_⟩
      show i + 1 < L.nr * L.nc
      omega
    · rw [if_neg hcond] at hh
      exact absurd hh (List.not_mem_nil l)
  · by_cases hcond : i / L.nc + 1 < L.nr
    · rw [if_pos hcond] at hv
      have hl : l = ⟨i, i + L.nc, .vertical⟩ := List.mem_singleton.mp hv
      subst hl
      have hc : 0 < L.nc := by
        rcases Nat.eq_zero_or_pos L.nc with h0 | h0
        · rw [h0, Nat.mul_zero] at hi; exact absurd hi (Nat.not_lt_zero i)
        · exact h0
      have hm2 : i % L.nc < L.nc := Nat.mod_lt i hc
      have hd2 : i / L.nc + 2 ≤ L.nr := by omega
      have h3 : L.nc * (i / L.nc + 2) ≤ L.nc * L.nr := Nat.mul_le_mul_left _ hd2
      have h2 : L.nc * (i / L.nc + 2) = L.nc * (i / L.nc) + L.nc + L.nc := by ring
      constructor
      · show i < i + L.nc
        omega
      · show i + L.nc < L.nr * L.nc
        omega
    · rw [if_neg hcond] at hv
      exact absurd hv (List.not_mem_nil l)

/-! Invariant preservation. -/

theorem lookup_rate_pos {table : List Transition} {a b : Nat} {o : Orient}
    {na nb : Nat} {r : ℚ} {nm : String} (htab : TableOK table)
    (h : lookup table a b o = some (na, nb, r, nm)) : 0 < r := by
  obtain ⟨tr, hmem, -, -, -, hr, -⟩ := lookup_eq_some h
  exact hr ▸ htab tr hmem

theorem scheduleLink_inv {e : Engine} {l : Link} (hinv : EngineInv e)
    (hl : l ∈ allLinks e.lat) : EngineInv (scheduleLink e l) := by
  obtain ⟨hq, hpw, htab, hlen⟩ := hinv
  unfold scheduleLink
  split
  · exact ⟨hq, hpw, htab, hlen⟩
  · rename_i hclosed
    cases hlk : lookup e.table (getState e l.a) (getState e l.b) l.orient with
    | none =>
        refine ⟨?_, ?_, htab, hlen⟩
        · intro ev hev
          exact hq ev (mem_removeLink.mp hev).1
        · exact hpw.sublist (removeLink_sublist e.queue l)
    | some out =>
        obtain ⟨na, nb, r, nm⟩ := out
        dsimp only
        have hrpos : 0 < r := lookup_rate_pos htab hlk
        have hclosed2 : isClosedLink e.lat l = false := by
          simpa using hclosed
        refine ⟨?_, ?_, htab, hlen⟩
        · intro ev hev
          rcases List.mem_append.mp hev with hold | hnew
          · exact hq ev (mem_removeLink.mp hold).1
          · have hev2 : ev = ⟨l, (getState e l.a, getState e l.b),
                qadd e.clock (drawTime e.rng r)⟩ := List.mem_singleton.mp hnew
            subst hev2
            refine ⟨hl, hclosed2, ?_⟩
            show e.clock ≤ qadd e.clock (drawTime e.rng r)
            rw [qadd_eq]
            exact le_add_of_nonneg_right (le_of_lt (drawTime_pos _ _ hrpos))
        · show QueuePairwise (removeLink e.queue l ++
            [⟨l, (getState e l.a, getState e l.b), qadd e.clock (drawTime e.rng r)⟩])
          unfold QueuePairwise
          rw [List.pairwise_append]
          refine ⟨hpw.sublist (removeLink_sublist e.queue l), List.pairwise_singleton _ _, ?_⟩
          intro x hx y hy
          have hxl : x.link ≠ l := (mem_removeLink.mp hx).2
          have hyl : y = ⟨l, (getState e l.a, getState e l.b),
              qadd e.clock (drawTime e.rng r)⟩ := List.mem_singleton.mp hy
          rw [hyl]
          exact hxl

theorem rescheduleMany_inv {ls : List Link} {e : Engine} (hinv : EngineInv e)
    (hls : ∀ l ∈ ls, l ∈ allLinks e.lat) : EngineInv (rescheduleMany ls e) := by
  induction ls generalizing e with
  | nil => exact hinv
  | cons l ls ih =>
      rw [rescheduleMany_cons]
      have h1 : EngineInv (scheduleLink e l) := scheduleLink_inv hinv (hls l (by simp))
      refine ih h1 ?_
      intro k hk
      rw [scheduleLink_lat]
      exact hls k (List.mem_cons_of_mem l hk)

theorem mkEngine_inv {lat : RasterGrid} {table : List Transition} {init : List Nat}
    {seed : Nat} (htab : TableOK table) (hlen : init.length = lat.nr * lat.nc) :
    EngineInv (mkEngine lat table init seed) := by
  unfold mkEngine
  refine rescheduleMany_inv ⟨?_, ?_, htab, hlen⟩ (fun l hl => hl)
  · intro ev hev
    exact absurd hev (List.not_mem_nil ev)
  · exact List.Pairwise.nil

theorem fireOrDiscard_inv {e : Engine} {ev : Event} (hinv : EngineInv e)
    (hm : minEvent e.queue = some ev) : EngineInv (fireOrDiscard e ev) := by
  obtain ⟨hq, hpw, htab, hlen⟩ := hinv
  have herase : ∀ x ∈ e.queue.erase ev, x ∈ e.queue :=
    fun x hx => (List.erase_sublist ev e.queue).subset hx
  unfold fireOrDiscard
  split
  · cases hlk : lookup e.table ev.pair.1 ev.pair.2 ev.link.orient with
    | none =>
        refine ⟨?_, ?_, htab, hlen⟩
        · intro x hx
          exact hq x (herase x hx)
        · exact hpw.sublist (List.erase_sublist ev e.queue)
    | some out =>
        obtain ⟨na, nb, r, nm⟩ := out
        apply rescheduleMany_inv
        · refine ⟨?_, ?_, htab, ?_⟩
          · intro x hx
            obtain ⟨hlk2, hcl, -⟩ := hq x (herase x hx)
            exact ⟨hlk2, hcl, minEvent_le hm x (herase x hx)⟩
          · exact hpw.sublist (List.erase_sublist ev e.queue)
          · show ((e.states.set ev.link.a na).set ev.link.b nb).length = _
            rw [List.length_set, List.length_set]
            exact hlen
        · intro k hk
          rcases List.mem_append.mp (List.mem_dedup.mp hk) with h1 | h1 <;>
            exact incidentLinks_subset h1
  · refine ⟨?_, ?_, htab, hlen⟩
    · intro x hx
      exact hq x (herase x hx)
    · exact hpw.sublist (List.erase_sublist ev e.queue)

theorem step_inv {target : ℚ} {e e2 : Engine} (hinv : EngineInv e)
    (h : step target e = some e2) : EngineInv e2 := by
  unfold step at h
  cases hm : minEvent e.queue with
  | none => rw [hm] at h; exact absurd h (by simp)
  | some ev =>
      rw [hm] at h
      dsimp only at h
      by_cases hlt : target < ev.time
      · rw [if_pos hlt] at h; exact absurd h (by simp)
      · rw [if_neg hlt] at h
        obtain rfl := Option.some_inj.mp h
        exact fireOrDiscard_inv ⟨hinv.1, hinv.2.1, hinv.2.2.1, hinv.2.2.2⟩ hm

theorem advanceLoop_inv {fuel : Nat} {target : ℚ} {e : Engine} (hinv : EngineInv e) :
    EngineInv (advanceLoop fuel target e) := by
  induction fuel generalizing e with
  | zero => exact hinv
  | succ n ih =>
      rw [advanceLoop]
      cases hs : step target e with
      | none => exact hinv
      | some e2 => exact ih (step_inv hinv hs)

/-! Loop algebra: stopping, fuel composition, agreement between targets. -/

theorem step_eq_none_iff {target : ℚ} {e : Engine} : step target e = none ↔ done target e := by
  unfold step done doneB
  cases hm : minEvent e.queue with
  | none => simp
  | some ev =>
      dsimp only
      by_cases hlt : target < ev.time
      · simp [hlt]
      · simp [hlt]

theorem advanceLoop_of_done {fuel : Nat} {target : ℚ} {e : Engine} (h : done target e) :
    advanceLoop fuel target e = e := by
  cases fuel with
  | zero => rfl
  | succ n => rw [advanceLoop, step_eq_none_iff.mpr h]

theorem advanceLoop_add (a b : Nat) (target : ℚ) (e : Engine) :
    advanceLoop (a + b) target e = advanceLoop b target (advanceLoop a target e) := by
  induction a generalizing e with
  | zero => rw [Nat.zero_add]; rfl
  | succ n ih =>
      rw [Nat.succ_add]
      cases hs : step target e with
      | none =>
          have h1 : advanceLoop (n + b + 1) target e = e := by rw [advanceLoop, hs]
          have h2 : advanceLoop (n + 1) target e = e := by rw [advanceLoop, hs]
          rw [h1, h2, advanceLoop_of_done (step_eq_none_iff.mp hs)]
      | some e2 =>
          have h1 : advanceLoop (n + b + 1) target e = advanceLoop (n + b) target e2 := by
            rw [advanceLoop, hs]
          have h2 : advanceLoop (n + 1) target e = advanceLoop n target e2 := by
            rw [advanceLoop, hs]
          rw [h1, h2, ih e2]

theorem step_agree {t1 t2 : ℚ} (h12 : t1 ≤ t2) {e e2 : Engine}
    (h : step t1 e = some e2) : step t2 e = some e2 := by
  unfold step at h ⊢
  cases hm : minEvent e.queue with
  | none => rw [hm] at h; exact absurd h (by simp)
  | some ev =>
      rw [hm] at h
      dsimp only at h ⊢
      by_cases hlt : t1 < ev.time
      · rw [if_pos hlt] at h; exact absurd h (by simp)
      · rw [if_neg hlt] at h
        rw [if_neg (not_lt.mpr (le_trans (not_lt.mp hlt) h12))]
        exact h

theorem advanceLoop_reach {t1 t2 : ℚ} (h12 : t1 ≤ t2) {f : Nat} {e : Engine}
    (h : done t1 (advanceLoop f t1 e)) :
    ∃ k, advanceLoop f t1 e = advanceLoop k t2 e := by
  induction f generalizing e with
  | zero => exact ⟨0, rfl⟩
  | succ n ih =>
      cases hs : step t1 e with
      | none =>
          have h1 : advanceLoop (n + 1) t1 e = e := by rw [advanceLoop, hs]
          exact ⟨0, h1⟩
      | some e2 =>
          have h1 : advanceLoop (n + 1) t1 e = advanceLoop n t1 e2 := by
            rw [advanceLoop, hs]
          rw [h1] at h ⊢
          obtain ⟨k, hk⟩ := ih h
          refine ⟨k + 1, ?_⟩
          rw [hk, advanceLoop, step_agree h12 hs]

theorem advanceLoop_unique {t : ℚ} {e : Engine} {k m : Nat}
    (hk : done t (advanceLoop k t e)) (hm : done t (advanceLoop m t e)) :
    advanceLoop k t e = advanceLoop m t e := by
  rcases Nat.le_total k m with h | h
  · obtain ⟨d, rfl⟩ := Nat.le.dest h
    rw [advanceLoop_add k d t e, advanceLoop_of_done hk]
  · obtain ⟨d, rfl⟩ := Nat.le.dest h
    rw [advanceLoop_add m d t e, advanceLoop_of_done hm]

theorem fireOrDiscard_clock_le {e : Engine} {ev : Event} (hq : QueueOK e)
    (hm : minEvent e.queue = some ev) : e.clock ≤ (fireOrDiscard e ev).clock := by
  unfold fireOrDiscard
  split
  · cases hlk : lookup e.table ev.pair.1 ev.pair.2 ev.link.orient with
    | none => exact le_refl _
    | some out =>
        obtain ⟨na, nb, r, nm⟩ := out
        dsimp only
        rw [rescheduleMany_clock]
        exact (hq ev (minEvent_mem hm)).2.2
  · exact le_refl _

theorem step_clock_le {t : ℚ} {e e2 : Engine} (hq : QueueOK e) (h : step t e = some e2) :
    e.clock ≤ e2.clock := by
  unfold step at h
  cases hm : minEvent e.queue with
  | none => rw [hm] at h; exact absurd h (by simp)
  | some ev =>
      rw [hm] at h
      dsimp only at h
      by_cases hlt : t < ev.time
      · rw [if_pos hlt] at h; exact absurd h (by simp)
      · rw [if_neg hlt] at h
        obtain rfl := Option.some_inj.mp h
        exact fireOrDiscard_clock_le hq hm

theorem advanceLoop_clock_le {f : Nat} {t : ℚ} {e : Engine} (hinv : EngineInv e) :
    e.clock ≤ (advanceLoop f t e).clock := by
  induction f generalizing e with
  | zero => exact le_refl _
  | succ n ih =>
      rw [advanceLoop]
      cases hs : step t e with
      | none => exact le_refl _
      | some e2 => exact le_trans (step_clock_le hinv.1 hs) (ih (step_inv hinv hs))

/-! Lattice and table stability along the run; state-count conservation. -/

@[simp] theorem fireOrDiscard_lat (e : Engine) (ev : Event) :
    (fireOrDiscard e ev).lat = e.lat := by
  unfold fireOrDiscard
  split
  · split
    · rfl
    · rw [rescheduleMany_lat]
  · rfl

@[simp] theorem fireOrDiscard_table (e : Engine) (ev : Event) :
    (fireOrDiscard e ev).table = e.table := by
  unfold fireOrDiscard
  split
  · split
    · rfl
    · rw [rescheduleMany_table]
  · rfl

theorem step_lat {target : ℚ} {e e2 : Engine} (h : step target e = some e2) :
    e2.lat = e.lat := by
  unfold step at h
  cases hm : minEvent e.queue with
  | none => rw [hm] at h; exact absurd h (by simp)
  | some ev =>
      rw [hm] at h
      dsimp only at h
      by_cases hlt : target < ev.time
      · rw [if_pos hlt] at h; exact absurd h (by simp)
      · rw [if_neg hlt] at h
        obtain rfl := Option.some_inj.mp h
        exact fireOrDiscard_lat e ev

theorem step_table {target : ℚ} {e e2 : Engine} (h : step target e = some e2) :
    e2.table = e.table := by
  unfold step at h
  cases hm : minEvent e.queue with
  | none => rw [hm] at h; exact absurd h (by simp)
  | some ev =>
      rw [hm] at h
      dsimp only at h
      by_cases hlt : target < ev.time
      · rw [if_pos hlt] at h; exact absurd h (by simp)
      · rw [if_neg hlt] at h
        obtain rfl := Option.some_inj.mp h
        exact fireOrDiscard_table e ev

theorem advanceLoop_lat (fuel : Nat) (target : ℚ) (e : Engine) :
    (advanceLoop fuel target e).lat = e.lat := by
  induction fuel generalizing e with
  | zero => rfl
  | succ n ih =>
      rw [advanceLoop]
      cases hs : step target e with
      | none => rfl
      | some e2 => rw [ih e2, step_lat hs]

theorem advanceLoop_table (fuel : Nat) (target : ℚ) (e : Engine) :
    (advanceLoop fuel target e).table = e.table := by
  induction fuel generalizing e with
  | zero => rfl
  | succ n ih =>
      rw [advanceLoop]
      cases hs : step target e with
      | none => rfl
      | some e2 => rw [ih e2, step_table hs]

theorem count_swap (l : List Nat) (a b sa sb v : Nat) (hab : a ≠ b)
    (ha : a < l.length) (hb : b < l.length) (hga : l.get ⟨a, ha⟩ = sa)
    (hgb : l.get ⟨b, hb⟩ = sb) :
    ((l.set a sb).set b sa).count v = l.count v := by
  have hb2 : b < (l.set a sb).length := by simpa using hb
  rw [List.count_set _ _ _ _ hb2, List.count_set _ _ _ _ ha]
  have hset : (l.set a sb)[b] = sb := by
    rw [List.getElem_set_ne hab]
    exact hgb
  have hla : l[a] = sa := hga
  rw [hset, hla]
  have hmem : sa ∈ l := hla ▸ List.getElem_mem ha
  have hA : (if (sa == v) = true then 1 else 0) ≤ l.count v := by
    by_cases h1 : sa = v
    · rw [if_pos (beq_iff_eq.mpr h1)]
      exact h1 ▸ List.count_pos_iff.mpr hmem
    · rw [if_neg (by simp [h1])]
      exact Nat.zero_le _
  omega

theorem fireOrDiscard_count {e : Engine} {ev : Event} (hinv : EngineInv e)
    (hm : minEvent e.queue = some ev)
    (hswap : ∀ tr ∈ e.table, tr.toPair.1 = tr.fromPair.2.1 ∧ tr.toPair.2.1 = tr.fromPair.1)
    (v : Nat) : (fireOrDiscard e ev).states.count v = e.states.count v := by
  obtain ⟨hq, hpw, htab, hlen⟩ := hinv
  obtain ⟨hlk2, -, -⟩ := hq ev (minEvent_mem hm)
  obtain ⟨hab, hblt⟩ := mem_allLinks hlk2
  have hbl : ev.link.b < e.states.length := by omega
  have hal : ev.link.a < e.states.length := by omega
  unfold fireOrDiscard
  split
  · rename_i hvalid
    cases hlk : lookup e.table ev.pair.1 ev.pair.2 ev.link.orient with
    | none => rfl
    | some out =>
        obtain ⟨na, nb, r, nm⟩ := out
        dsimp only
        rw [rescheduleMany_states]
        obtain ⟨tr, htr, hfrom, hto1, hto2, -, -⟩ := lookup_eq_some hlk
        obtain ⟨hs1, hs2⟩ := hswap tr htr
        have hna : na = ev.pair.2 := by rw [← hto1, hs1, hfrom]
        have hnb : nb = ev.pair.1 := by rw [← hto2, hs2, hfrom]
        have hga : e.states.get ⟨ev.link.a, hal⟩ = ev.pair.1 := by
          have h2 := congrArg Prod.fst hvalid
          simp only [getState] at h2
          rwa [List.getD_eq_getElem?_getD, List.getElem?_eq_getElem hal,
            Option.getD_some] at h2
        have hgb : e.states.get ⟨ev.link.b, hbl⟩ = ev.pair.2 := by
          have h2 := congrArg Prod.snd hvalid
          simp only [getState] at h2
          rwa [List.getD_eq_getElem?_getD, List.getElem?_eq_getElem hbl,
            Option.getD_some] at h2
        rw [hna, hnb]
        exact count_swap e.states ev.link.a ev.link.b ev.pair.1 ev.pair.2 v
          (Nat.ne_of_lt hab) hal hbl hga hgb
  · rfl

theorem step_count {t : ℚ} {e e2 : Engine} (hinv : EngineInv e)
    (hswap : ∀ tr ∈ e.table, tr.toPair.1 = tr.fromPair.2.1 ∧ tr.toPair.2.1 = tr.fromPair.1)
    (h : step t e = some e2) (v : Nat) : e2.states.count v = e.states.count v := by
  unfold step at h
  cases hm : minEvent e.queue with
  | none => rw [hm] at h; exact absurd h (by simp)
  | some ev =>
      rw [hm] at h
      dsimp only at h
      by_cases hlt : t < ev.time
      · rw [if_pos hlt] at h; exact absurd h (by simp)
      · rw [if_neg hlt] at h
        obtain rfl := Option.some_inj.mp h
        exact fireOrDiscard_count hinv hm hswap v

theorem advanceLoop_count {fuel : Nat} {t : ℚ} {e : Engine} (hinv : EngineInv e)
    (hswap : ∀ tr ∈ e.table, tr.toPair.1 = tr.fromPair.2.1 ∧ tr.toPair.2.1 = tr.fromPair.1)
    (v : Nat) : (advanceLoop fuel t e).states.count v = e.states.count v := by
  induction fuel generalizing e with
  | zero => rfl
  | succ n ih =>
      rw [advanceLoop]
      cases hs : step t e with
      | none => rfl
      | some e2 =>
          have hswap2 : ∀ tr ∈ e2.table,
              tr.toPair.1 = tr.fromPair.2.1 ∧ tr.toPair.2.1 = tr.fromPair.1 := by
            rw [step_table hs]; exact hswap
          rw [ih (step_inv hinv hs) hswap2, step_count hinv hswap hs v]

/-! Closed links never fire; surrounded nodes never change. -/

theorem fireOrDiscard_fired_sub {e : Engine} {ev : Event} :
    ∀ x ∈ (fireOrDiscard e ev).fired, x ∈ e.fired ∨ x.1 = ev.link := by
  unfold fireOrDiscard
  split
  · cases hlk : lookup e.table ev.pair.1 ev.pair.2 ev.link.orient with
    | none => intro x hx; exact Or.inl hx
    | some out =>
        obtain ⟨na, nb, r, nm⟩ := out
        dsimp only
        rw [rescheduleMany_fired]
        intro x hx
        rcases List.mem_append.mp hx with h1 | h1
        · exact Or.inl h1
        · have h2 : x = (ev.link, ev.time, nm) := List.mem_singleton.mp h1
          exact Or.inr (by rw [h2])
  · intro x hx; exact Or.inl hx

theorem step_firedOK {t : ℚ} {e e2 : Engine} (hinv : EngineInv e) (hf : FiredOK e)
    (h : step t e = some e2) : FiredOK e2 := by
  unfold step at h
  cases hm : minEvent e.queue with
  | none => rw [hm] at h; exact absurd h (by simp)
  | some ev =>
      rw [hm] at h
      dsimp only at h
      by_cases hlt : t < ev.time
      · rw [if_pos hlt] at h; exact absurd h (by simp)
      · rw [if_neg hlt] at h
        obtain rfl := Option.some_inj.mp h
        obtain ⟨-, hcl, -⟩ := hinv.1 ev (minEvent_mem hm)
        intro x hx
        rw [fireOrDiscard_lat]
        rcases fireOrDiscard_fired_sub x hx with h1 | h1
        · exact hf x h1
        · rw [h1]; exact hcl

theorem advanceLoop_firedOK {fuel : Nat} {t : ℚ} {e : Engine} (hinv : EngineInv e)
    (hf : FiredOK e) : FiredOK (advanceLoop fuel t e) := by
  induction fuel generalizing e with
  | zero => exact hf
  | succ n ih =>
      rw [advanceLoop]
      cases hs : step t e with
      | none => exact hf
      | some e2 => exact ih (step_inv hinv hs) (step_firedOK hinv hf hs)

theorem getD_set_ne (l : List Nat) (i j x : Nat) (h : i ≠ j) :
    (l.set i x).getD j 0 = l.getD j 0 := by
  rw [List.getD_eq_getElem?_getD, List.getD_eq_getElem?_getD, List.getElem?_set_ne h]

theorem fireOrDiscard_getState_closed {e : Engine} {ev : Event} {n : Nat}
    (hq : QueueOK e) (hm : minEvent e.queue = some ev)
    (hn : ∀ l ∈ incidentLinks e.lat n, isClosedLink e.lat l = true) :
    getState (fireOrDiscard e ev) n = getState e n := by
  obtain ⟨hlk2, hcl, -⟩ := hq ev (minEvent_mem hm)
  unfold fireOrDiscard
  split
  · cases hlk : lookup e.table ev.pair.1 ev.pair.2 ev.link.orient with
    | none => rfl
    | some out =>
        obtain ⟨na, nb, r, nm⟩ := out
        dsimp only
        unfold getState
        rw [rescheduleMany_states]
        have hna : ev.link.a ≠ n := by
          intro hEq
          have h2 := hn ev.link (mem_incidentLinks.mpr ⟨hlk2, Or.inl hEq⟩)
          rw [hcl] at h2
          exact absurd h2 (by simp)
        have hnb : ev.link.b ≠ n := by
          intro hEq
          have h2 := hn ev.link (mem_incidentLinks.mpr ⟨hlk2, Or.inr hEq⟩)
          rw [hcl] at h2
          exact absurd h2 (by simp)
        rw [getD_set_ne _ _ _ _ hnb, getD_set_ne _ _ _ _ hna]
  · rfl

theorem step_getState_closed {t : ℚ} {e e2 : Engine} {n : Nat} (hinv : EngineInv e)
    (hn : ∀ l ∈ incidentLinks e.lat n, isClosedLink e.lat l = true)
    (h : step t e = some e2) : getState e2 n = getState e n := by
  unfold step at h
  cases hm : minEvent e.queue with
  | none => rw [hm] at h; exact absurd h (by simp)
  | some ev =>
      rw [hm] at h
      dsimp only at h
      by_cases hlt : t < ev.time
      · rw [if_pos hlt] at h; exact absurd h (by simp)
      · rw [if_neg hlt] at h
        obtain rfl := Option.some_inj.mp h
        exact fireOrDiscard_getState_closed hinv.1 hm hn

theorem advanceLoop_getState_closed {fuel : Nat} {t : ℚ} {e : Engine} {n : Nat}
    (hinv : EngineInv e)
    (hn : ∀ l ∈ incidentLinks e.lat n, isClosedLink e.lat l = true) :
    getState (advanceLoop fuel t e) n = getState e n := by
  induction fuel generalizing e with
  | zero => rfl
  | succ m ih =>
      rw [advanceLoop]
      cases hs : step t e with
      | none => rfl
      | some e2 =>
          have hn2 : ∀ l ∈ incidentLinks e2.lat n, isClosedLink e2.lat l = true := by
            rw [step_lat hs]; exact hn
          rw [ih (step_inv hinv hs) hn2, step_getState_closed hinv hn hs]

/-! setStates, driver-script, and concentration-profile lemmas. -/

@[simp] theorem setStatesRaw_nil (st : List Nat) (v : Nat) : setStatesRaw st [] v = st := rfl

@[simp] theorem setStatesRaw_cons (st : List Nat) (m : Nat) (ms : List Nat) (v : Nat) :
    setStatesRaw st (m :: ms) v = setStatesRaw (st.set m v) ms v := rfl

theorem setStatesRaw_length (st : List Nat) (nodes : List Nat) (v : Nat) :
    (setStatesRaw st nodes v).length = st.length := by
  induction nodes generalizing st with
  | nil => rfl
  | cons m ms ih => rw [setStatesRaw_cons, ih, List.length_set]

theorem getD_set_self (l : List Nat) (i x : Nat) (h : i < l.length) :
    (l.set i x).getD i 0 = x := by
  rw [List.getD_eq_getElem?_getD, List.getElem?_set_self h, Option.getD_some]

theorem setStatesRaw_getD (st : List Nat) (nodes : List Nat) (v n : Nat)
    (hb : ∀ m ∈ nodes, m < st.length) :
    (setStatesRaw st nodes v).getD n 0 = if n ∈ nodes then v else st.getD n 0 := by
  induction nodes generalizing st with
  | nil => simp
  | cons m ms ih =>
      rw [setStatesRaw_cons]
      have hb2 : ∀ k ∈ ms, k < (st.set m v).length := by
        intro k hk
        rw [List.length_set]
        exact hb k (List.mem_cons_of_mem m hk)
      rw [ih (st.set m v) hb2]
      by_cases hnm : n ∈ ms
      · rw [if_pos hnm, if_pos (List.mem_cons_of_mem m hnm)]
      · rw [if_neg hnm]
        by_cases hn2 : n = m
        · subst hn2
          rw [if_pos (List.mem_cons_self n ms)]
          exact getD_set_self st n v (hb n (List.mem_cons_self n ms))
        · rw [if_neg (by simp [hn2, hnm])]
          exact getD_set_ne st m n v (fun hEq => hn2 (hEq.symm))

@[simp] theorem setStates_lat (e : Engine) (nodes : List Nat) (v : Nat) :
    (setStates e nodes v).lat = e.lat := by
  unfold setStates
  rw [rescheduleMany_lat]

@[simp] theorem setStates_clock (e : Engine) (nodes : List Nat) (v : Nat) :
    (setStates e nodes v).clock = e.clock := by
  unfold setStates
  rw [rescheduleMany_clock]

@[simp] theorem setStates_states (e : Engine) (nodes : List Nat) (v : Nat) :
    (setStates e nodes v).states = setStatesRaw e.states nodes v := by
  unfold setStates
  rw [rescheduleMany_states]

theorem isLeftCol_iff (i : Nat) : isLeftCol i = true ↔ i % nc < 10 := by
  have h10 : mkRat (5 * nc) 100 = ((10 : Nat) : ℚ) := by
    rw [Rat.mkRat_eq_div]
    norm_num [nc]
  unfold isLeftCol node_x
  rw [decide_eq_true_eq, h10, Nat.cast_lt]

theorem foldl_intsum (l : List Nat) (s : Int) :
    l.foldl (fun (acc : Int) (v : Nat) => acc + (v : Int)) s =
      s + (l.map (fun (v : Nat) => (v : Int))).sum := by
  induction l generalizing s with
  | nil => simp
  | cons x xs ih =>
      rw [List.foldl_cons, ih, List.map_cons, List.sum_cons]
      ring

theorem arange_getD (start stop stride r : Nat)
    (h : r < (stop - start + stride - 1) / stride) :
    (arange start stop stride).getD r 0 = start + r * stride := by
  unfold arange
  rw [List.getD_eq_getElem?_getD, List.getElem?_map, List.getElem?_range h,
    Option.map_some', Option.getD_some]

theorem npSlice_eq_map (g : List Nat) (a k : Nat) (h : a + k ≤ g.length) :
    npSlice g a (a + k) = (List.range k).map (fun j => g.getD (a + j) 0) := by
  apply List.ext_getElem?
  intro i
  unfold npSlice
  have hk : a + k - a = k := by omega
  rw [hk, List.getElem?_take, List.getElem?_drop, List.getElem?_map]
  by_cases hik : i < k
  · rw [if_pos hik, List.getElem?_range hik, Option.map_some']
    have hai : a + i < g.length := by omega
    rw [List.getElem?_eq_getElem hai, List.getD_eq_getElem?_getD,
      List.getElem?_eq_getElem hai, Option.getD_some]
  · rw [if_neg hik,
      List.getElem?_eq_none (by simpa using Nat.le_of_not_lt hik), Option.map_none']

/-! Claim theorems. -/

/-- C2: the rule table built by `setup_transition_list` enables exactly four
transitions — lookup of (0,1) horizontal gives (1,0) at rate 0.1 "left
motion"; (1,0) horizontal gives (0,1) at rate 9.9 "right motion"; (0,1)
vertical gives (1,0) at rate 10.55 "down motion"; (1,0) vertical gives (0,1)
at rate 9.45 "up motion"; and the uniform pairs (0,0) and (1,1) have no
entry in either orientation, so such links are inert. -/
theorem rule_table_of_setup_transition_list :
    lookup setup_transition_list 0 1 .horizontal = some (1, 0, (0.1 : ℚ), "left motion") ∧
    lookup setup_transition_list 1 0 .horizontal = some (0, 1, (9.9 : ℚ), "right motion") ∧
    lookup setup_transition_list 0 1 .vertical = some (1, 0, (10.55 : ℚ), "down motion") ∧
    lookup setup_transition_list 1 0 .vertical = some (0, 1, (9.45 : ℚ), "up motion") ∧
    lookup setup_transition_list 0 0 .horizontal = none ∧
    lookup setup_transition_list 1 1 .horizontal = none ∧
    lookup setup_transition_list 0 0 .vertical = none ∧
    lookup setup_transition_list 1 1 .vertical = none := by
  have h1 : (0.1 : ℚ) = mkRat 1 10 := by rw [Rat.mkRat_eq_div]; norm_num
  have h2 : (9.9 : ℚ) = mkRat 99 10 := by rw [Rat.mkRat_eq_div]; norm_num
  have h3 : (10.55 : ℚ) = mkRat 211 20 := by rw [Rat.mkRat_eq_div]; norm_num
  have h4 : (9.45 : ℚ) = mkRat 189 20 := by rw [Rat.mkRat_eq_div]; norm_num
  rw [h1, h2, h3, h4]
  exact ⟨rfl, rfl, rfl, rfl, rfl, rfl, rfl, rfl⟩

/-- C1: reproducibility — for a fixed seed, fixed lattice topology, fixed
rule table and fixed initial states, two independently constructed runs of
`advanceTo` to the same target produce identical results, identical final
node-state mappings and identical fired-event sequences (link, fire time,
label).  The engine's only stochastic input is the seedable pseudorandom
stream, which is a deterministic function of the seed. -/
theorem ctca_reproducible (lat1 lat2 : RasterGrid) (table1 table2 : List Transition)
    (init1 init2 : List Nat) (seed1 seed2 fuel : Nat) (t : ℚ)
    (hlat : lat1 = lat2) (htab : table1 = table2) (hinit : init1 = init2)
    (hseed : seed1 = seed2) :
    advanceTo fuel t (mkEngine lat1 table1 init1 seed1) =
      advanceTo fuel t (mkEngine lat2 table2 init2 seed2) ∧
    (advanceLoop fuel t (mkEngine lat1 table1 init1 seed1)).states =
      (advanceLoop fuel t (mkEngine lat2 table2 init2 seed2)).states ∧
    (advanceLoop fuel t (mkEngine lat1 table1 init1 seed1)).fired =
      (advanceLoop fuel t (mkEngine lat2 table2 init2 seed2)).fired := by
  subst hlat
  subst htab
  subst hinit
  subst hseed
  exact ⟨rfl, rfl, rfl⟩

theorem ctca_reproducible_witness :
    advanceTo 30 1 (mkEngine ⟨1, 3, fun _ => false⟩ setup_transition_list [1, 0, 0] 7) =
      advanceTo 30 1 (mkEngine ⟨1, 3, fun _ => false⟩ setup_transition_list [1, 0, 0] 7) ∧
    (advanceLoop 30 1 (mkEngine ⟨1, 3, fun _ => false⟩ setup_transition_list [1, 0, 0] 7)).states =
      (advanceLoop 30 1 (mkEngine ⟨1, 3, fun _ => false⟩ setup_transition_list [1, 0, 0] 7)).states ∧
    (advanceLoop 30 1 (mkEngine ⟨1, 3, fun _ => false⟩ setup_transition_list [1, 0, 0] 7)).fired =
      (advanceLoop 30 1 (mkEngine ⟨1, 3, fun _ => false⟩ setup_transition_list [1, 0, 0] 7)).fired :=
  ctca_reproducible ⟨1, 3, fun _ => false⟩ ⟨1, 3, fun _ => false⟩
    setup_transition_list setup_transition_list [1, 0, 0] [1, 0, 0] 7 7 30 1 rfl rfl rfl rfl

/-- C8: `advanceTo` error handling — calling with the target equal to the
current clock is an idempotent no-op that returns the current time with the
engine unchanged (no state change, no firings); calling with a target
strictly before the current clock is a fatal ContractViolation that aborts
immediately, returning an error and no mutated engine at all. -/
theorem advanceTo_contract (fuel : Nat) (t : ℚ) (e : Engine) :
    (t = e.clock → advanceTo fuel t e = Except.ok (e.clock, e)) ∧
    (t < e.clock → advanceTo fuel t e =
      Except.error "ContractViolation: advanceTo target before current clock") := by
  constructor
  · intro h
    subst h
    unfold advanceTo
    rw [if_neg (lt_irrefl _), if_pos rfl]
  · intro h
    unfold advanceTo
    rw [if_pos h]

theorem advanceTo_contract_witness :
    advanceTo 5 0 (mkEngine ⟨1, 2, fun _ => false⟩ setup_transition_list [1, 0] 3) =
      Except.ok ((mkEngine ⟨1, 2, fun _ => false⟩ setup_transition_list [1, 0] 3).clock,
        mkEngine ⟨1, 2, fun _ => false⟩ setup_transition_list [1, 0] 3) ∧
    advanceTo 5 (mkRat (-1) 1) (mkEngine ⟨1, 2, fun _ => false⟩ setup_transition_list [1, 0] 3) =
      Except.error "ContractViolation: advanceTo target before current clock" :=
  ⟨(advanceTo_contract 5 0 (mkEngine ⟨1, 2, fun _ => false⟩ setup_transition_list [1, 0] 3)).1
      (by decide),
   (advanceTo_contract 5 (mkRat (-1) 1)
      (mkEngine ⟨1, 2, fun _ => false⟩ setup_transition_list [1, 0] 3)).2 (by decide)⟩

/-- C9: in the driver script, initialization first sets every node of the 10
leftmost columns (`node_x < 0.05*nc`, i.e. column < 10) to state 1 and then
resets all closed boundary nodes to state 0; but the in-loop injection
`node_state_grid[left_cols] = 1`, executed before each `ca.run`, sets every
node of those columns — including the closed boundary nodes among them —
back to state 1, so closed boundary nodes in columns 0 through 9 hold
state 1 during every run call, whatever the current grid contents. -/
theorem left_boundary_injection (i : Nat) (hc : isClosedNode i = true)
    (hl : i % nc < 10) :
    injectLeft (fun _ => 0) i = 1 ∧ node_state_init i = 0 ∧
    (∀ g : Nat → Nat, injectLeft g i = 1) := by
  have hcol : isLeftCol i = true := (isLeftCol_iff i).mpr hl
  refine ⟨?_, ?_, ?_⟩
  · unfold injectLeft
    rw [hcol]
    rfl
  · unfold node_state_init zeroClosed
    rw [hc]
    rfl
  · intro g
    unfold injectLeft
    rw [hcol]
    rfl

theorem left_boundary_injection_witness :
    isClosedNode 0 = true ∧ 0 % nc < 10 ∧
    (injectLeft (fun _ => 0) 0 = 1 ∧ node_state_init 0 = 0 ∧
      (∀ g : Nat → Nat, injectLeft g 0 = 1)) :=
  ⟨by decide, by decide, left_boundary_injection 0 (by decide) (by decide)⟩

/-- C10: after the run, for each sampling position x ∈ {50, 100, 150} and
each row r < nr, the computed concentration value at row r is the arithmetic
mean of the 20 node states at flat indices x-10+r*nc through x+9+r*nc
inclusive (a 20-cell horizontal window of row r). -/
theorem concentration_window (g : List Nat) (hg : g.length = nr * nc) (x : Nat)
    (hx : x = 50 ∨ x = 100 ∨ x = 150) (r : Nat) (hr : r < nr) :
    concProfile g x r =
      ((List.range 20).map (fun j => ((g.getD (x - 10 + r * nc + j) 0 : Nat) : ℚ))).sum / 20 := by
  have hx10 : 10 ≤ x ∧ x + 10 + 49 * nc ≤ nr * nc ∧
      (nr * nc - (x - 10) + nc - 1) / nc = nr ∧
      (nr * nc - (x + 10) + nc - 1) / nc = nr := by
    rcases hx with rfl | rfl | rfl <;> refine ⟨by norm_num, ?_, ?_, ?_⟩ <;> norm_num [nr, nc]
  obtain ⟨hxa, hxb, hda, hdb⟩ := hx10
  have hr49 : r ≤ 49 := by
    have : nr = 50 := rfl
    omega
  have ha : (arange (x - 10) (nr * nc) nc).getD r 0 = (x - 10) + r * nc := by
    apply arange_getD
    rw [hda]
    exact hr
  have hb : (arange (x + 10) (nr * nc) nc).getD r 0 = (x + 10) + r * nc := by
    apply arange_getD
    rw [hdb]
    exact hr
  have hwin : (x + 10) + r * nc = ((x - 10) + r * nc) + 20 := by omega
  have hbound : ((x - 10) + r * nc) + 20 ≤ g.length := by
    rw [hg]
    have hmul : r * nc ≤ 49 * nc := Nat.mul_le_mul_right nc hr49
    omega
  unfold concProfile
  rw [ha, hb, hwin, npSlice_eq_map g _ 20 hbound]
  unfold npMean
  rw [foldl_intsum, List.length_map, List.length_range, zero_add, Rat.mkRat_eq_div,
    List.map_map, Int.cast_list_sum, List.map_map]
  norm_num [Function.comp_def]

theorem scheduleLink_pairwise {e : Engine} {l : Link} (hpw : QueuePairwise e.queue) :
    QueuePairwise (scheduleLink e l).queue := by
  unfold scheduleLink
  split
  · exact hpw
  · cases hlk : lookup e.table (getState e l.a) (getState e l.b) l.orient with
    | none => exact hpw.sublist (removeLink_sublist e.queue l)
    | some out =>
        obtain ⟨na, nb, r, nm⟩ := out
        dsimp only
        show QueuePairwise (removeLink e.queue l ++
          [⟨l, (getState e l.a, getState e l.b), qadd e.clock (drawTime e.rng r)⟩])
        unfold QueuePairwise
        rw [List.pairwise_append]
        refine ⟨hpw.sublist (removeLink_sublist e.queue l), List.pairwise_singleton _ _, ?_⟩
        intro x hx y hy
        rw [List.mem_singleton.mp hy]
        exact (mem_removeLink.mp hx).2

theorem rescheduleMany_pairwise {ls : List Link} {e : Engine}
    (hpw : QueuePairwise e.queue) : QueuePairwise (rescheduleMany ls e).queue := by
  induction ls generalizing e with
  | nil => exact hpw
  | cons l ls ih =>
      rw [rescheduleMany_cons]
      exact ih (scheduleLink_pairwise hpw)

theorem fireOrDiscard_pairwise {e : Engine} {ev : Event} (hpw : QueuePairwise e.queue) :
    QueuePairwise (fireOrDiscard e ev).queue := by
  unfold fireOrDiscard
  split
  · cases hlk : lookup e.table ev.pair.1 ev.pair.2 ev.link.orient with
    | none => exact hpw.sublist (List.erase_sublist ev e.queue)
    | some out =>
        obtain ⟨na, nb, r, nm⟩ := out
        dsimp only
        exact rescheduleMany_pairwise (hpw.sublist (List.erase_sublist ev e.queue))
  · exact hpw.sublist (List.erase_sublist ev e.queue)

theorem step_pairwise {t : ℚ} {e e2 : Engine} (hpw : QueuePairwise e.queue)
    (h : step t e = some e2) : QueuePairwise e2.queue := by
  unfold step at h
  cases hm : minEvent e.queue with
  | none => rw [hm] at h; exact absurd h (by simp)
  | some ev =>
      rw [hm] at h
      dsimp only at h
      by_cases hlt : t < ev.time
      · rw [if_pos hlt] at h; exact absurd h (by simp)
      · rw [if_neg hlt] at h
        obtain rfl := Option.some_inj.mp h
        exact fireOrDiscard_pairwise hpw

theorem advanceLoop_pairwise {fuel : Nat} {t : ℚ} {e : Engine}
    (hpw : QueuePairwise e.queue) : QueuePairwise (advanceLoop fuel t e).queue := by
  induction fuel generalizing e with
  | zero => exact hpw
  | succ n ih =>
      rw [advanceLoop]
      cases hs : step t e with
      | none => exact hpw
      | some e2 => exact ih (step_pairwise hpw hs)

/-- C3: under the rule table of `setup_transition_list` — in which every
enabled transition swaps its two endpoint states — every firing performed by
the advance loop preserves, for each state value v, the total number of
lattice nodes whose state equals v.  (Only an explicit `setStates` injection,
which bypasses firing, may change these per-state counts.) -/
theorem firing_preserves_state_counts (e : Engine) (fuel : Nat) (t : ℚ) (v : Nat)
    (hinv : EngineInv e) (htab : e.table = setup_transition_list) :
    (advanceLoop fuel t e).states.count v = e.states.count v := by
  apply advanceLoop_count hinv
  have hswap : ∀ tr ∈ setup_transition_list,
      tr.toPair.1 = tr.fromPair.2.1 ∧ tr.toPair.2.1 = tr.fromPair.1 := by decide
  intro tr htr
  rw [htab] at htr
  exact hswap tr htr

theorem firing_preserves_state_counts_witness :
    EngineInv (mkEngine ⟨2, 3, fun _ => false⟩ setup_transition_list [0, 1, 0, 0, 0, 0] 42) ∧
    (mkEngine ⟨2, 3, fun _ => false⟩ setup_transition_list
        [0, 1, 0, 0, 0, 0] 42).table = setup_transition_list ∧
    (advanceLoop 8 (mkRat 1 10) (mkEngine ⟨2, 3, fun _ => false⟩ setup_transition_list
        [0, 1, 0, 0, 0, 0] 42)).states.count 1 =
      (mkEngine ⟨2, 3, fun _ => false⟩ setup_transition_list
        [0, 1, 0, 0, 0, 0] 42).states.count 1 :=
  ⟨by decide, rfl,
    firing_preserves_state_counts
      (mkEngine ⟨2, 3, fun _ => false⟩ setup_transition_list [0, 1, 0, 0, 0, 0] 42)
      8 (mkRat 1 10) 1 (by decide) rfl⟩

/-- C4: links whose `isClosedLink` predicate is true are never scheduled
(no event for them ever sits in the queue) and never fire (no fired-log
entry carries a closed link), regardless of rule-table entries; consequently
the state of a node all of whose incident links are closed is never changed
by the advance loop. -/
theorem closed_links_inert (e : Engine) (fuel : Nat) (t : ℚ) (n : Nat)
    (hinv : EngineInv e) (hf : FiredOK e)
    (hn : ∀ l ∈ incidentLinks e.lat n, isClosedLink e.lat l = true) :
    (∀ ev ∈ (advanceLoop fuel t e).queue, isClosedLink e.lat ev.link = false) ∧
    (∀ x ∈ (advanceLoop fuel t e).fired, isClosedLink e.lat x.1 = false) ∧
    getState (advanceLoop fuel t e) n = getState e n := by
  refine ⟨?_, ?_, advanceLoop_getState_closed hinv hn⟩
  · intro ev hev
    have h2 := (advanceLoop_inv hinv : EngineInv (advanceLoop fuel t e)).1 ev hev
    rw [← advanceLoop_lat fuel t e]
    exact h2.2.1
  · intro x hx
    have h2 := (advanceLoop_firedOK hinv hf : FiredOK (advanceLoop fuel t e)) x hx
    rw [← advanceLoop_lat fuel t e]
    exact h2

theorem closed_links_inert_witness :
    EngineInv (mkEngine ⟨2, 3, fun i => decide (i % 3 = 0)⟩ setup_transition_list
      [0, 1, 0, 0, 0, 0] 42) ∧
    FiredOK (mkEngine ⟨2, 3, fun i => decide (i % 3 = 0)⟩ setup_transition_list
      [0, 1, 0, 0, 0, 0] 42) ∧
    (∀ l ∈ incidentLinks (mkEngine ⟨2, 3, fun i => decide (i % 3 = 0)⟩
        setup_transition_list [0, 1, 0, 0, 0, 0] 42).lat 0,
      isClosedLink (mkEngine ⟨2, 3, fun i => decide (i % 3 = 0)⟩
        setup_transition_list [0, 1, 0, 0, 0, 0] 42).lat l = true) ∧
    ((∀ ev ∈ (advanceLoop 10 (mkRat 1 10) (mkEngine ⟨2, 3, fun i => decide (i % 3 = 0)⟩
        setup_transition_list [0, 1, 0, 0, 0, 0] 42)).queue,
      isClosedLink (mkEngine ⟨2, 3, fun i => decide (i % 3 = 0)⟩
        setup_transition_list [0, 1, 0, 0, 0, 0] 42).lat ev.link = false) ∧
    (∀ x ∈ (advanceLoop 10 (mkRat 1 10) (mkEngine ⟨2, 3, fun i => decide (i % 3 = 0)⟩
        setup_transition_list [0, 1, 0, 0, 0, 0] 42)).fired,
      isClosedLink (mkEngine ⟨2, 3, fun i => decide (i % 3 = 0)⟩
        setup_transition_list [0, 1, 0, 0, 0, 0] 42).lat x.1 = false) ∧
    getState (advanceLoop 10 (mkRat 1 10) (mkEngine ⟨2, 3, fun i => decide (i % 3 = 0)⟩
        setup_transition_list [0, 1, 0, 0, 0, 0] 42)) 0 =
      getState (mkEngine ⟨2, 3, fun i => decide (i % 3 = 0)⟩
        setup_transition_list [0, 1, 0, 0, 0, 0] 42) 0) :=
  ⟨by decide, by decide, by decide,
    closed_links_inert (mkEngine ⟨2, 3, fun i => decide (i % 3 = 0)⟩ setup_transition_list
      [0, 1, 0, 0, 0, 0] 42) 10 (mkRat 1 10) 0 (by decide) (by decide) (by decide)⟩

/-- C5: the advance loop never decreases the internal clock, and splitting is
transparent: for targets t1 ≤ t2, running to completion at t1 and then to
completion at t2 yields exactly the same engine — same firing sequence, same
final node states, same final clock — as one completed run to t2.  Queued
events beyond the target are left in place by the stopping rule (`done`),
not redrawn, which is what makes the splitting exact. -/
theorem advance_monotone_splittable (e : Engine) (f1 f2 f3 : Nat) (t1 t2 : ℚ)
    (hinv : EngineInv e) (h12 : t1 ≤ t2)
    (h1 : done t1 (advanceLoop f1 t1 e))
    (h2 : done t2 (advanceLoop f2 t2 (advanceLoop f1 t1 e)))
    (h3 : done t2 (advanceLoop f3 t2 e)) :
    e.clock ≤ (advanceLoop f1 t1 e).clock ∧
    advanceLoop f2 t2 (advanceLoop f1 t1 e) = advanceLoop f3 t2 e := by
  refine ⟨advanceLoop_clock_le hinv, ?_⟩
  obtain ⟨k, hk⟩ := advanceLoop_reach h12 h1
  rw [hk] at h2 ⊢
  rw [← advanceLoop_add k f2 t2 e] at h2 ⊢
  exact advanceLoop_unique h2 h3

theorem advance_monotone_splittable_witness :
    EngineInv (mkEngine ⟨1, 3, fun _ => false⟩ setup_transition_list [1, 0, 0] 7) ∧
    (1 : ℚ) ≤ 2 ∧
    done 1 (advanceLoop 40 1 (mkEngine ⟨1, 3, fun _ => false⟩ setup_transition_list [1, 0, 0] 7)) ∧
    done 2 (advanceLoop 40 2 (advanceLoop 40 1
      (mkEngine ⟨1, 3, fun _ => false⟩ setup_transition_list [1, 0, 0] 7))) ∧
    done 2 (advanceLoop 80 2 (mkEngine ⟨1, 3, fun _ => false⟩ setup_transition_list [1, 0, 0] 7)) ∧
    ((mkEngine ⟨1, 3, fun _ => false⟩ setup_transition_list [1, 0, 0] 7).clock ≤
      (advanceLoop 40 1 (mkEngine ⟨1, 3, fun _ => false⟩ setup_transition_list [1, 0, 0] 7)).clock ∧
    advanceLoop 40 2 (advanceLoop 40 1
        (mkEngine ⟨1, 3, fun _ => false⟩ setup_transition_list [1, 0, 0] 7)) =
      advanceLoop 80 2 (mkEngine ⟨1, 3, fun _ => false⟩ setup_transition_list [1, 0, 0] 7)) :=
  ⟨by decide, by norm_num, by decide, by decide, by decide,
    advance_monotone_splittable
      (mkEngine ⟨1, 3, fun _ => false⟩ setup_transition_list [1, 0, 0] 7)
      40 40 80 1 2 (by decide) (by norm_num) (by decide) (by decide) (by decide)⟩

/-- C6: `setStates(nodes, value)` sets every listed node's state to `value`,
leaves every other node's state unchanged, and re-schedules exactly the links
incident to the affected nodes through the same `rescheduleMany` /
`scheduleLink` path that a firing uses, so forced external changes
participate in subsequent scheduling exactly as fired ones do. -/
theorem setStates_spec (e : Engine) (nodes : List Nat) (v : Nat)
    (hb : ∀ m ∈ nodes, m < e.states.length) :
    (∀ n ∈ nodes, getState (setStates e nodes v) n = v) ∧
    (∀ n, n ∉ nodes → getState (setStates e nodes v) n = getState e n) ∧
    setStates e nodes v =
      rescheduleMany ((nodes.flatMap (fun m => incidentLinks e.lat m)).dedup)
        { e with states := setStatesRaw e.states nodes v } := by
  refine ⟨?_, ?_, rfl⟩
  · intro n hn
    unfold getState
    rw [setStates_states, setStatesRaw_getD e.states nodes v n hb, if_pos hn]
  · intro n hn
    unfold getState
    rw [setStates_states, setStatesRaw_getD e.states nodes v n hb, if_neg hn]

theorem setStates_spec_witness :
    (∀ m ∈ [0, 1], m < (mkEngine ⟨1, 3, fun _ => false⟩ setup_transition_list
      [1, 0, 0] 7).states.length) ∧
    ((∀ n ∈ [0, 1], getState (setStates (mkEngine ⟨1, 3, fun _ => false⟩
        setup_transition_list [1, 0, 0] 7) [0, 1] 1) n = 1) ∧
    (∀ n, n ∉ [0, 1] → getState (setStates (mkEngine ⟨1, 3, fun _ => false⟩
        setup_transition_list [1, 0, 0] 7) [0, 1] 1) n =
      getState (mkEngine ⟨1, 3, fun _ => false⟩ setup_transition_list [1, 0, 0] 7) n) ∧
    setStates (mkEngine ⟨1, 3, fun _ => false⟩ setup_transition_list [1, 0, 0] 7) [0, 1] 1 =
      rescheduleMany (([0, 1].flatMap (fun m => incidentLinks (mkEngine ⟨1, 3, fun _ => false⟩
          setup_transition_list [1, 0, 0] 7).lat m)).dedup)
        { mkEngine ⟨1, 3, fun _ => false⟩ setup_transition_list [1, 0, 0] 7 with
          states := setStatesRaw (mkEngine ⟨1, 3, fun _ => false⟩ setup_transition_list
            [1, 0, 0] 7).states [0, 1] 1 }) :=
  ⟨by decide,
    setStates_spec (mkEngine ⟨1, 3, fun _ => false⟩ setup_transition_list [1, 0, 0] 7)
      [0, 1] 1 (by decide)⟩

/-- C7: at every point during engine construction and during the advance
loop, each link has at most one live scheduled event in the queue:
`mkEngine` builds a pairwise-distinct queue from the empty one, rescheduling
any list of links preserves the property (scheduling a link that already has
a queued event first removes the old one), and every intermediate state of
the advance loop (any fuel) keeps it. -/
theorem at_most_one_event_per_link (e : Engine) (hpw : QueuePairwise e.queue) :
    (∀ lat : RasterGrid, ∀ table : List Transition, ∀ init : List Nat, ∀ seed : Nat,
      QueuePairwise (mkEngine lat table init seed).queue) ∧
    (∀ ls : List Link, QueuePairwise (rescheduleMany ls e).queue) ∧
    (∀ fuel : Nat, ∀ t : ℚ, QueuePairwise (advanceLoop fuel t e).queue) := by
  refine ⟨?_, ?_, ?_⟩
  · intro lat table init seed
    exact rescheduleMany_pairwise List.Pairwise.nil
  · intro ls
    exact rescheduleMany_pairwise hpw
  · intro fuel t
    exact advanceLoop_pairwise hpw

theorem at_most_one_event_per_link_witness :
    QueuePairwise (mkEngine ⟨1, 3, fun _ => false⟩ setup_transition_list
      [1, 0, 0] 7).queue ∧
    ((∀ lat : RasterGrid, ∀ table : List Transition, ∀ init : List Nat, ∀ seed : Nat,
      QueuePairwise (mkEngine lat table init seed).queue) ∧
    (∀ ls : List Link, QueuePairwise (rescheduleMany ls
      (mkEngine ⟨1, 3, fun _ => false⟩ setup_transition_list [1, 0, 0] 7)).queue) ∧
    (∀ fuel : Nat, ∀ t : ℚ, QueuePairwise (advanceLoop fuel t
      (mkEngine ⟨1, 3, fun _ => false⟩ setup_transition_list [1, 0, 0] 7)).queue)) :=
  ⟨by decide,
    at_most_one_event_per_link
      (mkEngine ⟨1, 3, fun _ => false⟩ setup_transition_list [1, 0, 0] 7) (by decide)⟩

theorem concentration_window_witness :
    (List.replicate (nr * nc) 0).length = nr * nc ∧ (50 = 50 ∨ 50 = 100 ∨ 50 = 150) ∧
    0 < nr ∧
    concProfile (List.replicate (nr * nc) 0) 50 0 =
      ((List.range 20).map (fun j =>
        (((List.replicate (nr * nc) 0).getD (50 - 10 + 0 * nc + j) 0 : Nat) : ℚ))).sum / 20 :=
  ⟨by simp, Or.inl rfl, by decide,
    concentration_window (List.replicate (nr * nc) 0) (by simp) 50 (Or.inl rfl) 0 (by decide)⟩
